import Mathlib

/-!
Verification of the real-time synchronization and notification core of the
quai-multisig frontend.  The definitions below are shallow embeddings of the
TypeScript sources:

* `LRUMap` — the bounded access-order map of
  `frontend/src/hooks/useMultisig.ts` (class `LRUMap`);
* `queueCacheUpdate` / `runNext` — the ordered cache-update queue of
  `useMultisig.ts` (the promise chain in `queueCacheUpdate`), modelled as an
  explicit state machine whose trace records processor start/settle events;
* `activateWallet` / `deactivateWallet` — `SubscriptionManager.ts`;
* `balanceObserve`, `observePending` — the notification effects of
  `useMultisig.ts` (balance increase, new transaction, ready-to-execute,
  approval changes);
* `handleReconnect` / `subscribeStatusHandler` — the reconnection logic of
  `IndexerSubscriptionService` (SETUP.md);
* `onInsertMerge` / `onUpdateMerge` — the cache reconciliation processors of
  `subscribeToTransactions` in `useMultisig.ts`.

Machine integers of the source are modelled as `Nat`/`Int`; addresses and
transaction hashes are modelled as already-normalized abstract identifiers
(`Nat`), since lowercase normalization is applied at every boundary in the
source and none of the verified properties depend on string case.
-/

/-! ## Bounded State Tracker: class `LRUMap` (useMultisig.ts lines 30-61)

A JavaScript `Map` preserves insertion order; `LRUMap` exploits this by
re-inserting touched keys at the end, so the head of the entry list is the
least-recently-used entry.  We model the map as an association list whose
first element is the oldest entry. -/

/-- Maximum number of wallets tracked in memory (useMultisig.ts line 24). -/
def MAX_TRACKED_WALLETS : Nat := 50

/-- Structure holding the entries of an `LRUMap` together with its capacity.
The entry list is ordered oldest-first, matching JavaScript `Map` iteration
order. -/
structure LRUMap (K V : Type) where
  maxSize : Nat
  entries : List (K × V)
deriving Repr

/-- Removal of every entry with the given key (JavaScript `Map.delete`;
keys are unique in a `Map`, so at most one entry is removed in practice). -/
def eraseKey {K V : Type} [DecidableEq K] (m : List (K × V)) (k : K) :
    List (K × V) :=
  m.filter (fun kv => kv.1 ≠ k)

/-- Lookup of a key in an association list (JavaScript `Map.get`). -/
def lookupKey {K V : Type} [DecidableEq K] (k : K) :
    List (K × V) → Option V
  | [] => none
  | (k', v) :: rest => if k' = k then some v else lookupKey k rest

/-- The eviction loop of `LRUMap.set`: while the size exceeds `maxSize`,
delete the oldest entry (the first key returned by `keys().next()`). -/
def evictOldest {K V : Type} (maxSize : Nat) : List (K × V) → List (K × V)
  | [] => []
  | x :: xs =>
    if xs.length + 1 > maxSize then evictOldest maxSize xs else x :: xs

/-- Method `set` of `LRUMap`: if the key exists it is deleted and re-added
(moving it to the end), then oldest entries are evicted while the size
exceeds the capacity. -/
def LRUMap.set {K V : Type} [DecidableEq K] (m : LRUMap K V) (k : K) (v : V) :
    LRUMap K V :=
  { m with entries := evictOldest m.maxSize (eraseKey m.entries k ++ [(k, v)]) }

/-- Method `get` of `LRUMap`: on a hit the entry is moved to the end
(most-recently-used position); on a miss the map is unchanged. -/
def LRUMap.get {K V : Type} [DecidableEq K] (m : LRUMap K V) (k : K) :
    Option V × LRUMap K V :=
  match lookupKey k m.entries with
  | some v => (some v, { m with entries := eraseKey m.entries k ++ [(k, v)] })
  | none => (none, m)

/-- Method `delete` of `LRUMap` (inherited from `Map`): explicit removal,
independent of capacity eviction. -/
def LRUMap.del {K V : Type} [DecidableEq K] (m : LRUMap K V) (k : K) :
    LRUMap K V :=
  { m with entries := eraseKey m.entries k }

/-- An abstract operation on an `LRUMap`, used to quantify over arbitrary
call sequences. -/
inductive LRUOp (K V : Type)
  | get (k : K)
  | set (k : K) (v : V)
  | del (k : K)

/-- Application of one operation. -/
def LRUMap.applyOp {K V : Type} [DecidableEq K] (m : LRUMap K V) :
    LRUOp K V → LRUMap K V
  | .get k => (m.get k).2
  | .set k v => m.set k v
  | .del k => m.del k

/-- Application of a sequence of operations. -/
def LRUMap.applyOps {K V : Type} [DecidableEq K] (m : LRUMap K V)
    (ops : List (LRUOp K V)) : LRUMap K V :=
  ops.foldl LRUMap.applyOp m

/-- Insertion of a list of key/value pairs in order via `set`. -/
def LRUMap.insertAll {K V : Type} [DecidableEq K] (m : LRUMap K V)
    (ks : List (K × V)) : LRUMap K V :=
  ks.foldl (fun acc kv => acc.set kv.1 kv.2) m

theorem evictOldest_eq_drop {K V : Type} (maxSize : Nat)
    (m : List (K × V)) : evictOldest maxSize m = m.drop (m.length - maxSize) := by
  induction m with
  | nil => simp [evictOldest]
  | cons x xs ih =>
      simp only [evictOldest, List.length_cons]
      by_cases h : xs.length + 1 > maxSize
      · rw [if_pos h, ih]
        have : xs.length + 1 - maxSize = (xs.length - maxSize) + 1 := by omega
        rw [this]
        simp [List.drop]
      · rw [if_neg h]
        have : xs.length + 1 - maxSize = 0 := by omega
        rw [this]
        simp

theorem evictOldest_length {K V : Type} (maxSize : Nat) (m : List (K × V)) :
    (evictOldest maxSize m).length = min m.length maxSize := by
  rw [evictOldest_eq_drop, List.length_drop]
  omega

theorem eraseKey_length_le {K V : Type} [DecidableEq K]
    (m : List (K × V)) (k : K) : (eraseKey m k).length ≤ m.length :=
  List.length_filter_le _ m

theorem eraseKey_of_not_mem {K V : Type} [DecidableEq K]
    (m : List (K × V)) (k : K) (h : k ∉ m.map Prod.fst) :
    eraseKey m k = m := by
  induction m with
  | nil => rfl
  | cons x xs ih =>
      simp only [List.map_cons, List.mem_cons] at h
      push_neg at h
      simp only [eraseKey, List.filter_cons]
      rw [if_pos (by simpa using Ne.symm h.1)]
      simpa [eraseKey] using ih h.2

theorem lookupKey_eraseKey_self {K V : Type} [DecidableEq K]
    (m : List (K × V)) (k : K) : lookupKey k (eraseKey m k) = none := by
  induction m with
  | nil => rfl
  | cons x xs ih =>
      simp only [eraseKey, List.filter_cons] at *
      by_cases h : x.1 = k
      · simpa [h] using ih
      · simpa [lookupKey, h] using ih

theorem lookupKey_eraseKey_ne {K V : Type} [DecidableEq K]
    (m : List (K × V)) (k k' : K) (h : k' ≠ k) :
    lookupKey k' (eraseKey m k) = lookupKey k' m := by
  induction m with
  | nil => rfl
  | cons x xs ih =>
      simp only [eraseKey, List.filter_cons] at *
      by_cases hx : x.1 = k
      · rw [if_neg (by simpa using hx)]
        rw [ih]
        have : x.1 ≠ k' := by
          intro hc
          exact h (hc ▸ hx)
        simp [lookupKey, this]
      · rw [if_pos (by simpa using hx)]
        by_cases hk : x.1 = k'
        · simp [lookupKey, hk]
        · simpa [lookupKey, hk] using ih

theorem eraseKey_cons_self {K V : Type} [DecidableEq K] (k : K)
    (x : K × V) (xs : List (K × V)) (hx : x.1 = k) :
    eraseKey (x :: xs) k = eraseKey xs k := by
  simp [eraseKey, List.filter_cons, hx]

theorem eraseKey_cons_ne {K V : Type} [DecidableEq K] (k : K)
    (x : K × V) (xs : List (K × V)) (hx : x.1 ≠ k) :
    eraseKey (x :: xs) k = x :: eraseKey xs k := by
  simp [eraseKey, List.filter_cons, hx]

theorem eraseKey_length_lt_of_lookup {K V : Type} [DecidableEq K]
    (m : List (K × V)) (k : K) (v : V) (h : lookupKey k m = some v) :
    (eraseKey m k).length < m.length := by
  induction m with
  | nil => simp [lookupKey] at h
  | cons x xs ih =>
      by_cases hx : x.1 = k
      · rw [eraseKey_cons_self k x xs hx]
        exact Nat.lt_succ_of_le (eraseKey_length_le xs k)
      · rw [eraseKey_cons_ne k x xs hx]
        obtain ⟨k', v'⟩ := x
        simp only [lookupKey, if_neg hx] at h
        exact Nat.succ_lt_succ (ih h)

theorem LRUMap.applyOp_maxSize {K V : Type} [DecidableEq K]
    (m : LRUMap K V) (op : LRUOp K V) : (m.applyOp op).maxSize = m.maxSize := by
  cases op with
  | get k =>
      simp only [LRUMap.applyOp, LRUMap.get]
      cases lookupKey k m.entries <;> rfl
  | set k v => rfl
  | del k => rfl

theorem LRUMap.applyOp_length_le {K V : Type} [DecidableEq K]
    (m : LRUMap K V) (op : LRUOp K V) (h : m.entries.length ≤ m.maxSize) :
    (m.applyOp op).entries.length ≤ m.maxSize := by
  cases op with
  | get k =>
      simp only [LRUMap.applyOp, LRUMap.get]
      cases hl : lookupKey k m.entries with
      | none => exact h
      | some v =>
          simp only [List.length_append, List.length_cons, List.length_nil]
          have := eraseKey_length_lt_of_lookup m.entries k v hl
          omega
  | set k v =>
      simp only [LRUMap.applyOp, LRUMap.set]
      rw [evictOldest_length]
      omega
  | del k =>
      simp only [LRUMap.applyOp, LRUMap.del]
      exact le_trans (eraseKey_length_le m.entries k) h

theorem LRUMap.applyOps_length_le {K V : Type} [DecidableEq K]
    (m : LRUMap K V) (ops : List (LRUOp K V)) (h : m.entries.length ≤ m.maxSize) :
    (m.applyOps ops).entries.length ≤ (m.applyOps ops).maxSize := by
  induction ops generalizing m with
  | nil => exact h
  | cons op rest ih =>
      have hmax := LRUMap.applyOp_maxSize m op
      exact ih (m.applyOp op) (hmax ▸ LRUMap.applyOp_length_le m op h)

theorem LRUMap.set_entries {K V : Type} [DecidableEq K]
    (m : LRUMap K V) (k : K) (v : V) :
    (m.set k v).entries = evictOldest m.maxSize (eraseKey m.entries k ++ [(k, v)]) :=
  rfl

theorem LRUMap.insertAll_maxSize {K V : Type} [DecidableEq K]
    (m : LRUMap K V) (ks : List (K × V)) :
    (m.insertAll ks).maxSize = m.maxSize := by
  induction ks generalizing m with
  | nil => rfl
  | cons kv rest ih => exact ih (m.set kv.1 kv.2)

theorem LRUMap.insertAll_fresh {K V : Type} [DecidableEq K]
    (maxSize : Nat) (ks : List (K × V)) (h : (ks.map Prod.fst).Nodup) :
    (LRUMap.insertAll ⟨maxSize, []⟩ ks).entries = ks.drop (ks.length - maxSize) := by
  induction ks using List.reverseRecOn with
  | nil => simp [LRUMap.insertAll]
  | append_singleton l kv ih =>
      have hnd : (l.map Prod.fst).Nodup ∧ kv.1 ∉ l.map Prod.fst := by
        rw [List.map_append, List.nodup_append] at h
        refine ⟨h.1, fun hc => ?_⟩
        exact h.2.2 hc (by simp)
      have hprev := ih hnd.1
      have hfold : LRUMap.insertAll (⟨maxSize, []⟩ : LRUMap K V) (l ++ [kv])
          = (LRUMap.insertAll ⟨maxSize, []⟩ l).set kv.1 kv.2 := by
        simp [LRUMap.insertAll, List.foldl_append]
      rw [hfold, LRUMap.set_entries, LRUMap.insertAll_maxSize, hprev]
      have hfresh : kv.1 ∉ (l.drop (l.length - maxSize)).map Prod.fst := by
        intro hc
        rw [List.map_drop] at hc
        exact hnd.2 (List.drop_subset _ _ hc)
      rw [eraseKey_of_not_mem _ _ hfresh]
      rw [evictOldest_eq_drop]
      have hsplit : l.drop (l.length - maxSize) ++ [(kv.1, kv.2)]
          = (l ++ [(kv.1, kv.2)]).drop (l.length - maxSize) := by
        rw [List.drop_append_of_le_length (by omega)]
      rw [hsplit, List.drop_drop]
      have hkv : (kv.1, kv.2) = kv := rfl
      rw [hkv]
      congr 1
      simp only [List.length_append, List.length_drop, List.length_cons,
        List.length_nil]
      omega

theorem LRUMap.applyOps_maxSize {K V : Type} [DecidableEq K]
    (m : LRUMap K V) (ops : List (LRUOp K V)) :
    (m.applyOps ops).maxSize = m.maxSize := by
  induction ops generalizing m with
  | nil => rfl
  | cons op rest ih =>
      simp only [LRUMap.applyOps, List.foldl_cons] at *
      rw [ih (m.applyOp op), LRUMap.applyOp_maxSize]

/-- C3: for every sequence of get/set/delete operations the `LRUMap` never
holds more than `maxSize` entries; inserting distinct keys into an empty map
leaves exactly the most recently inserted `maxSize` of them, in order (so
after N > C distinct inserts exactly C entries remain, the C
most-recently-touched); `get` on a hit moves the key to the
most-recently-used end; `set` of a fresh key into a full map evicts exactly
the single least-recently-used (oldest) entry; `delete` removes its key and
leaves every other key untouched, independent of eviction. -/
theorem C3_bounded_state_tracker :
    (∀ (m : LRUMap Nat Nat) (ops : List (LRUOp Nat Nat)),
        m.entries.length ≤ m.maxSize →
        (m.applyOps ops).entries.length ≤ m.maxSize) ∧
    (∀ (maxSize : Nat) (ks : List (Nat × Nat)), (ks.map Prod.fst).Nodup →
        (LRUMap.insertAll ⟨maxSize, []⟩ ks).entries
          = ks.drop (ks.length - maxSize)) ∧
    (∀ (m : LRUMap Nat Nat) (k v : Nat),
        lookupKey k m.entries = some v →
        m.get k = (some v, ⟨m.maxSize, eraseKey m.entries k ++ [(k, v)]⟩)) ∧
    (∀ (m : LRUMap Nat Nat) (k v : Nat),
        m.entries.length = m.maxSize → 0 < m.maxSize →
        k ∉ m.entries.map Prod.fst →
        (m.set k v).entries = m.entries.tail ++ [(k, v)]) ∧
    (∀ (m : LRUMap Nat Nat) (k : Nat),
        lookupKey k (m.del k).entries = none ∧
        ∀ k', k' ≠ k →
          lookupKey k' (m.del k).entries = lookupKey k' m.entries) := by
  refine ⟨?_, ?_, ?_, ?_, ?_⟩
  · intro m ops h
    have := LRUMap.applyOps_length_le m ops h
    rwa [LRUMap.applyOps_maxSize] at this
  · intro maxSize ks h
    exact LRUMap.insertAll_fresh maxSize ks h
  · intro m k v h
    simp [LRUMap.get, h]
  · intro m k v hfull hpos hfresh
    rw [LRUMap.set_entries, eraseKey_of_not_mem _ _ hfresh,
      evictOldest_eq_drop]
    have hlen : (m.entries ++ [(k, v)]).length - m.maxSize = 1 := by
      simp only [List.length_append, List.length_cons, List.length_nil]
      omega
    rw [hlen, List.drop_append_of_le_length (by omega), List.drop_one]
  · intro m k
    refine ⟨lookupKey_eraseKey_self m.entries k, fun k' hk => ?_⟩
    exact lookupKey_eraseKey_ne m.entries k k' hk

/-- Witness for C3 at concrete inputs (capacity 2, three distinct keys). -/
theorem C3_bounded_state_tracker_witness :
    (LRUMap.applyOps (⟨2, []⟩ : LRUMap Nat Nat)
        [LRUOp.set 1 10, LRUOp.set 2 20, LRUOp.set 3 30]).entries.length ≤ 2 ∧
    (LRUMap.insertAll (⟨2, []⟩ : LRUMap Nat Nat)
        [(1, 10), (2, 20), (3, 30)]).entries
      = [(1, 10), (2, 20), (3, 30)].drop (3 - 2) ∧
    LRUMap.get (⟨2, [(5, 50), (6, 60)]⟩ : LRUMap Nat Nat) 5
      = (some 50, ⟨2, eraseKey [(5, 50), (6, 60)] 5 ++ [(5, 50)]⟩) ∧
    (LRUMap.set (⟨2, [(5, 50), (6, 60)]⟩ : LRUMap Nat Nat) 7 70).entries
      = [(5, 50), (6, 60)].tail ++ [(7, 70)] ∧
    lookupKey 5 ((⟨2, [(5, 50), (6, 60)]⟩ : LRUMap Nat Nat).del 5).entries
      = none ∧
    lookupKey 6 ((⟨2, [(5, 50), (6, 60)]⟩ : LRUMap Nat Nat).del 5).entries
      = lookupKey 6 [(5, 50), (6, 60)] :=
  ⟨C3_bounded_state_tracker.1 _ _ (by decide),
   C3_bounded_state_tracker.2.1 2 _ (by decide),
   C3_bounded_state_tracker.2.2.1 _ 5 50 (by decide),
   C3_bounded_state_tracker.2.2.2.1 _ 7 70 (by decide) (by decide) (by decide),
   (C3_bounded_state_tracker.2.2.2.2 _ 5).1,
   (C3_bounded_state_tracker.2.2.2.2 _ 5).2 6 (by decide)⟩

/-! ## Ordered Update Queue: `queueCacheUpdate` (useMultisig.ts lines 165-170
and 441-462)

The source appends each accepted processor to a single promise chain
(`cacheUpdateQueueRef.current = current.catch(noop).then(run).catch(log)
.finally(decrement)`), so a processor begins only after its predecessor has
fully settled, successfully or not, and `cacheUpdateQueueSizeRef` counts
queued plus in-flight processors.  We model this with an explicit state
machine: `queueCacheUpdate` is the enqueue operation translated from the
source (including the `MAX_QUEUE_SIZE` drop branch), and `runNext` executes
the head processor to completion, appending its events to a global trace.
Atomic execution of the head is faithful because the promise chain never
interleaves two queued processors.  Enqueue is a total function: the source
operation catches every rejection, so no exception reaches the caller. -/

/-- Maximum queue depth (useMultisig.ts line 170). -/
def MAX_QUEUE_SIZE : Nat := 50

/-- A queued processor: an identifier, an abstract list of cache-mutation
actions, and whether its asynchronous body rejects. -/
structure Proc where
  pid : Nat
  body : List Nat
  fails : Bool
deriving DecidableEq

/-- Events recorded on the execution trace. -/
inductive QEvent
  | start (pid : Nat)
  | act (pid : Nat) (a : Nat)
  | settle (pid : Nat) (ok : Bool)
deriving DecidableEq

/-- The events produced by running one processor to settlement: it starts,
performs its actions, and settles (with `ok = false` when it rejects; the
chain swallows the rejection either way). -/
def execTrace (p : Proc) : List QEvent :=
  QEvent.start p.pid :: (p.body.map (QEvent.act p.pid) ++ [QEvent.settle p.pid (!p.fails)])

/-- State of the cache-update queue. -/
structure QueueState where
  pending : List Proc
  depth : Nat
  executed : List Proc
  accepted : List Proc
  dropped : List Proc
  warnings : Nat
  trace : List QEvent
deriving DecidableEq

/-- The initial queue (`Promise.resolve()` chain, size 0). -/
def initQueue : QueueState :=
  { pending := [], depth := 0, executed := [], accepted := [],
    dropped := [], warnings := 0, trace := [] }

/-- The enqueue operation `queueCacheUpdate`: when the tracked depth has
reached `MAX_QUEUE_SIZE` the processor is discarded and a warning recorded;
otherwise the depth is incremented and the processor appended to the chain. -/
def queueCacheUpdate (s : QueueState) (p : Proc) : QueueState :=
  if s.depth ≥ MAX_QUEUE_SIZE then
    { s with dropped := s.dropped ++ [p], warnings := s.warnings + 1 }
  else
    { s with pending := s.pending ++ [p], depth := s.depth + 1,
             accepted := s.accepted ++ [p] }

/-- One settlement step of the promise chain: the head processor (if any)
runs to completion; the `finally` handler then decrements the depth. -/
def runNext (s : QueueState) : QueueState :=
  match s.pending with
  | [] => s
  | p :: rest =>
      { s with pending := rest, depth := s.depth - 1,
               executed := s.executed ++ [p],
               trace := s.trace ++ execTrace p }

/-- An interleaved command: an enqueue call or a chain settlement step. -/
inductive QCmd
  | enq (p : Proc)
  | step
deriving DecidableEq

/-- Command application. -/
def qStep (s : QueueState) : QCmd → QueueState
  | .enq p => queueCacheUpdate s p
  | .step => runNext s

/-- Execution of an arbitrary interleaving of enqueues and settlements. -/
def runQueue (cmds : List QCmd) : QueueState :=
  cmds.foldl qStep initQueue

/-- The queue invariant relating the trace to the accepted order. -/
def QueueInv (s : QueueState) : Prop :=
  s.accepted = s.executed ++ s.pending ∧
  s.depth = s.pending.length ∧
  s.trace = (s.executed.map execTrace).flatten

theorem queueInv_init : QueueInv initQueue := by
  refine ⟨rfl, rfl, rfl⟩

theorem queueInv_qStep (s : QueueState) (c : QCmd) (h : QueueInv s) :
    QueueInv (qStep s c) := by
  obtain ⟨h1, h2, h3⟩ := h
  cases c with
  | enq p =>
      simp only [qStep, queueCacheUpdate]
      by_cases hd : s.depth ≥ MAX_QUEUE_SIZE
      · rw [if_pos hd]
        exact ⟨h1, h2, h3⟩
      · rw [if_neg hd]
        refine ⟨?_, ?_, h3⟩
        · simp [h1, List.append_assoc]
        · simp [h2]
  | step =>
      simp only [qStep, runNext]
      cases hp : s.pending with
      | nil => exact ⟨h1, h2, h3⟩
      | cons p rest =>
          refine ⟨?_, ?_, ?_⟩
          · simp [h1, hp, List.append_assoc]
          · simp [h2, hp]
          · simp [h3, List.map_append, List.flatten_append]

theorem queueInv_runQueue (cmds : List QCmd) : QueueInv (runQueue cmds) := by
  have : ∀ s, QueueInv s → QueueInv (cmds.foldl qStep s) := by
    induction cmds with
    | nil => exact fun s h => h
    | cons c rest ih =>
        exact fun s h => ih (qStep s c) (queueInv_qStep s c h)
  exact this initQueue queueInv_init

theorem join_decompose (ps : List Proc) (i : Nat) (hi : i < ps.length) :
    (ps.map execTrace).flatten
      = ((ps.take i).map execTrace).flatten
        ++ execTrace (ps.get ⟨i, hi⟩)
        ++ ((ps.drop (i + 1)).map execTrace).flatten := by
  conv_lhs => rw [← List.take_append_drop i ps]
  rw [List.drop_eq_getElem_cons hi]
  simp only [List.map_append, List.flatten_append, List.map_cons,
    List.flatten_cons, List.append_assoc, List.get_eq_getElem]

/-- C1: for every interleaving of `queueCacheUpdate` enqueues and chain
settlements, the execution trace is exactly the concatenation of the
accepted processors' blocks in enqueue order: the executed processors form
a prefix of the accepted sequence, the trace is the flattening of their
blocks, and each block (which begins with its `start` event and ends with
its `settle` event) sits contiguously after all earlier blocks — so a
processor never starts before its predecessor has fully settled, whether
the predecessor succeeded or failed, and no two processors overlap. -/
theorem C1_ordered_update_queue (cmds : List QCmd) :
    (runQueue cmds).trace
      = ((runQueue cmds).executed.map execTrace).flatten ∧
    (runQueue cmds).accepted
      = (runQueue cmds).executed ++ (runQueue cmds).pending ∧
    (∀ p : Proc,
        (execTrace p).head? = some (QEvent.start p.pid) ∧
        (execTrace p).getLast? = some (QEvent.settle p.pid (!p.fails))) ∧
    ∀ i (hi : i < (runQueue cmds).executed.length),
      (runQueue cmds).trace
        = (((runQueue cmds).executed.take i).map execTrace).flatten
          ++ execTrace ((runQueue cmds).executed.get ⟨i, hi⟩)
          ++ (((runQueue cmds).executed.drop (i + 1)).map execTrace).flatten := by
  obtain ⟨h1, h2, h3⟩ := queueInv_runQueue cmds
  refine ⟨h3, h1, ?_, ?_⟩
  · intro p
    constructor
    · rfl
    · show ((QEvent.start p.pid :: p.body.map (QEvent.act p.pid))
          ++ [QEvent.settle p.pid (!p.fails)]).getLast? = _
      rw [List.getLast?_concat]
  · intro i hi
    rw [h3]
    exact join_decompose (runQueue cmds).executed i hi

/-- Concrete four-command demonstration run used by the witness of C1. -/
def c1DemoCmds : List QCmd :=
  [QCmd.enq ⟨1, [7], false⟩, QCmd.enq ⟨2, [], true⟩, QCmd.step, QCmd.step]

/-- Witness for C1: the block decomposition at index 1 of a concrete run
with two processors (the second one failing). -/
theorem C1_ordered_update_queue_witness :
    (runQueue c1DemoCmds).trace
      = (((runQueue c1DemoCmds).executed.take 1).map execTrace).flatten
        ++ execTrace ((runQueue c1DemoCmds).executed.get ⟨1, by decide⟩)
        ++ (((runQueue c1DemoCmds).executed.drop 2).map execTrace).flatten :=
  (C1_ordered_update_queue c1DemoCmds).2.2.2 1 (by decide)

/-- C2: when the tracked queued-plus-in-flight depth equals
`MAX_QUEUE_SIZE`, a further `queueCacheUpdate` call discards the processor
(it is never accepted onto the chain), records one warning, and leaves the
pending chain, the accepted sequence, the executed sequence, the trace and
the tracked depth unchanged; the operation is a total function, matching
the source, whose enqueue path never throws. -/
theorem C2_queue_backpressure (s : QueueState) (p : Proc)
    (h : s.depth = MAX_QUEUE_SIZE) :
    queueCacheUpdate s p
      = { s with dropped := s.dropped ++ [p], warnings := s.warnings + 1 } ∧
    (queueCacheUpdate s p).pending = s.pending ∧
    (queueCacheUpdate s p).accepted = s.accepted ∧
    (queueCacheUpdate s p).executed = s.executed ∧
    (queueCacheUpdate s p).trace = s.trace ∧
    (queueCacheUpdate s p).depth = s.depth ∧
    (queueCacheUpdate s p).warnings = s.warnings + 1 ∧
    (queueCacheUpdate s p).dropped = s.dropped ++ [p] := by
  have hcond : s.depth ≥ MAX_QUEUE_SIZE := h.ge
  have hq : queueCacheUpdate s p
      = { s with dropped := s.dropped ++ [p], warnings := s.warnings + 1 } := by
    simp [queueCacheUpdate, if_pos hcond]
  exact ⟨hq, by rw [hq], by rw [hq], by rw [hq], by rw [hq], by rw [hq],
    by rw [hq], by rw [hq]⟩

/-- A queue filled by fifty accepted enqueues, used by the witness of C2. -/
def fullQueueDemo : QueueState :=
  runQueue (List.replicate 50 (QCmd.enq ⟨0, [], false⟩))

set_option maxRecDepth 8000 in
/-- Witness for C2: the fifty-first enqueue against a full queue leaves the
depth and accepted sequence unchanged and records a warning. -/
theorem C2_queue_backpressure_witness :
    (queueCacheUpdate fullQueueDemo ⟨1, [2], false⟩).depth
      = fullQueueDemo.depth ∧
    (queueCacheUpdate fullQueueDemo ⟨1, [2], false⟩).accepted
      = fullQueueDemo.accepted ∧
    (queueCacheUpdate fullQueueDemo ⟨1, [2], false⟩).warnings
      = fullQueueDemo.warnings + 1 :=
  ⟨(C2_queue_backpressure fullQueueDemo ⟨1, [2], false⟩ (by decide)).2.2.2.2.2.1,
   (C2_queue_backpressure fullQueueDemo ⟨1, [2], false⟩ (by decide)).2.2.1,
   (C2_queue_backpressure fullQueueDemo ⟨1, [2], false⟩ (by decide)).2.2.2.2.2.2.1⟩

/-! ## Subscription Lifecycle Manager: `SubscriptionManager.ts`

`activeWallets` is a JavaScript `Set`, whose iteration order is insertion
order; since a wallet is only ever inserted when not active, the first
element returned by `values().next()` is the least-recently-activated
wallet.  Wallet addresses are abstract identifiers (`Nat`); the callback
record is modelled by which handlers are provided, and the side effects of
activation (eviction callback invocation, channel teardown, channel
creation) are recorded as an ordered event list. -/

/-- Maximum concurrent wallet subscriptions
(`INDEXER_CONFIG.MAX_SUBSCRIPTIONS`, SETUP.md line 387). -/
def MAX_SUBSCRIPTIONS : Nat := 10

/-- Which handlers a consumer passed to `activateWallet`. -/
structure WalletSubscriptionCallbacks where
  hasTransactionInsert : Bool
  hasTransactionUpdate : Bool
  hasDepositInsert : Bool
  hasEvicted : Bool
deriving DecidableEq

/-- Observable side effects of the manager, in execution order. -/
inductive SubEvent
  | evictedCallback (w : Nat)
  | unsubscribe (w : Nat)
  | subscribeTransactions (w : Nat)
  | subscribeDeposits (w : Nat)
deriving DecidableEq

/-- State of the `SubscriptionManager`: the insertion-ordered active set,
the per-wallet count of stored teardown closures, and the set of wallets
with a registered eviction callback. -/
structure SubscriptionManager where
  activeWallets : List Nat
  unsubscribeFns : List (Nat × Nat)
  evictionCallbacks : List Nat
deriving DecidableEq

/-- Number of channels `activateWallet` creates for the given callbacks:
one transaction channel if an insert or update handler is present, one
deposit channel if a deposit handler is present. -/
def subCount (cbs : WalletSubscriptionCallbacks) : Nat :=
  (if cbs.hasTransactionInsert || cbs.hasTransactionUpdate then 1 else 0)
    + (if cbs.hasDepositInsert then 1 else 0)

/-- Channel-creation events of `activateWallet`, in source order
(transactions first, then deposits). -/
def subscribeEvents (w : Nat) (cbs : WalletSubscriptionCallbacks) :
    List SubEvent :=
  (if cbs.hasTransactionInsert || cbs.hasTransactionUpdate
    then [SubEvent.subscribeTransactions w] else [])
  ++ (if cbs.hasDepositInsert then [SubEvent.subscribeDeposits w] else [])

/-- Method `deactivateWallet`: when teardown closures are stored for the
wallet, each is invoked and the wallet is removed from all three maps;
otherwise nothing happens (the stored array is always present for an
active wallet, and an empty array is still truthy in the source). -/
def deactivateWallet (s : SubscriptionManager) (w : Nat) :
    SubscriptionManager × List SubEvent :=
  match lookupKey w s.unsubscribeFns with
  | some k =>
      ({ activeWallets := s.activeWallets.filter (fun x => x ≠ w),
         unsubscribeFns := eraseKey s.unsubscribeFns w,
         evictionCallbacks := s.evictionCallbacks.filter (fun x => x ≠ w) },
       List.replicate k (SubEvent.unsubscribe w))
  | none => (s, [])

/-- Method `activateWallet`: a no-op when the wallet is already active;
otherwise, when the active count has reached `MAX_SUBSCRIPTIONS`, the
oldest wallet is evicted — its eviction callback (if registered) is called
first, then its channels are torn down via `deactivateWallet` — and then
the new subscriptions are created and recorded. -/
def activateWallet (s : SubscriptionManager) (w : Nat)
    (cbs : WalletSubscriptionCallbacks) :
    SubscriptionManager × List SubEvent :=
  if w ∈ s.activeWallets then (s, [])
  else
    let evictStep :=
      if s.activeWallets.length ≥ MAX_SUBSCRIPTIONS then
        match s.activeWallets.head? with
        | some oldest =>
            let cbEvents :=
              if oldest ∈ s.evictionCallbacks
                then [SubEvent.evictedCallback oldest] else []
            let d := deactivateWallet s oldest
            (d.1, cbEvents ++ d.2)
        | none => (s, [])
      else (s, [])
    ({ activeWallets := evictStep.1.activeWallets ++ [w],
       unsubscribeFns := evictStep.1.unsubscribeFns ++ [(w, subCount cbs)],
       evictionCallbacks :=
         if cbs.hasEvicted then evictStep.1.evictionCallbacks ++ [w]
         else evictStep.1.evictionCallbacks },
     evictStep.2 ++ subscribeEvents w cbs)

theorem filterNe_of_not_mem (l : List Nat) (a : Nat) (h : a ∉ l) :
    l.filter (fun x => x ≠ a) = l := by
  induction l with
  | nil => rfl
  | cons x xs ih =>
      simp only [List.mem_cons] at h
      push_neg at h
      rw [List.filter_cons, if_pos (by simpa using Ne.symm h.1), ih h.2]

/-- C4: with the active count at `MAX_SUBSCRIPTIONS` and a wallet that is
not yet active, `activateWallet` evicts exactly one wallet — the
least-recently-activated (oldest) one — and the event sequence shows its
`onEvicted` callback firing strictly before its channels are torn down;
afterwards the new wallet is active, the evicted one is not, and the
active count still equals `MAX_SUBSCRIPTIONS`. -/
theorem C4_subscription_eviction (s : SubscriptionManager)
    (w oldest k : Nat) (cbs : WalletSubscriptionCallbacks)
    (hlen : s.activeWallets.length = MAX_SUBSCRIPTIONS)
    (hw : w ∉ s.activeWallets)
    (hold : s.activeWallets.head? = some oldest)
    (hnd : s.activeWallets.Nodup)
    (hcb : oldest ∈ s.evictionCallbacks)
    (hun : lookupKey oldest s.unsubscribeFns = some k) :
    (activateWallet s w cbs).1.activeWallets
      = s.activeWallets.tail ++ [w] ∧
    (activateWallet s w cbs).1.activeWallets.length = MAX_SUBSCRIPTIONS ∧
    w ∈ (activateWallet s w cbs).1.activeWallets ∧
    oldest ∉ (activateWallet s w cbs).1.activeWallets ∧
    (activateWallet s w cbs).2
      = SubEvent.evictedCallback oldest
          :: (List.replicate k (SubEvent.unsubscribe oldest)
              ++ subscribeEvents w cbs) := by
  cases haw : s.activeWallets with
  | nil => rw [haw] at hlen; exact absurd hlen (by decide)
  | cons a t =>
      have ha : a = oldest := by
        rw [haw] at hold
        simpa using hold
      subst ha
      have htnd : a ∉ t ∧ t.Nodup := by
        rw [haw, List.nodup_cons] at hnd
        exact hnd
      have hwt : w ≠ a ∧ w ∉ t := by
        rw [haw, List.mem_cons] at hw
        push_neg at hw
        exact hw
      have hge : s.activeWallets.length ≥ MAX_SUBSCRIPTIONS := hlen.ge
      have hfilter : s.activeWallets.filter (fun x => x ≠ a) = t := by
        rw [haw, List.filter_cons, if_neg (by simp), filterNe_of_not_mem t a htnd.1]
      have hact : activateWallet s w cbs
          = ({ activeWallets := t ++ [w],
               unsubscribeFns := eraseKey s.unsubscribeFns a ++ [(w, subCount cbs)],
               evictionCallbacks :=
                 if cbs.hasEvicted
                   then s.evictionCallbacks.filter (fun x => x ≠ a) ++ [w]
                   else s.evictionCallbacks.filter (fun x => x ≠ a) },
             SubEvent.evictedCallback a
               :: (List.replicate k (SubEvent.unsubscribe a)
                   ++ subscribeEvents w cbs)) := by
        simp only [activateWallet, if_neg hw, if_pos hge, hold,
          deactivateWallet, hun, if_pos hcb, hfilter,
          List.singleton_append, List.append_assoc, List.cons_append,
          List.nil_append]
      rw [hact]
      refine ⟨rfl, ?_, ?_, ?_, rfl⟩
      · rw [haw] at hlen
        simp only [List.length_append, List.length_cons, List.length_nil]
        simp only [List.length_cons] at hlen
        omega
      · simp
      · simp only [List.mem_append, List.mem_cons, List.mem_singleton]
        rintro (hc | hc)
        · exact htnd.1 hc
        · simp at hc
          exact hwt.1 hc.symm

/-- Concrete full manager used by the witness of C4: ten active wallets
0..9, each with two stored teardown closures and an eviction callback. -/
def demoManager : SubscriptionManager :=
  { activeWallets := [0, 1, 2, 3, 4, 5, 6, 7, 8, 9],
    unsubscribeFns :=
      [(0, 2), (1, 2), (2, 2), (3, 2), (4, 2), (5, 2), (6, 2), (7, 2),
       (8, 2), (9, 2)],
    evictionCallbacks := [0, 1, 2, 3, 4, 5, 6, 7, 8, 9] }

/-- Callback record with every handler present, used by the witnesses. -/
def demoCallbacks : WalletSubscriptionCallbacks :=
  { hasTransactionInsert := true, hasTransactionUpdate := true,
    hasDepositInsert := true, hasEvicted := true }

/-- Witness for C4: activating wallet 100 against the full manager evicts
wallet 0, with the eviction callback event first. -/
theorem C4_subscription_eviction_witness :
    (activateWallet demoManager 100 demoCallbacks).1.activeWallets
      = demoManager.activeWallets.tail ++ [100] ∧
    (activateWallet demoManager 100 demoCallbacks).2
      = SubEvent.evictedCallback 0
          :: (List.replicate 2 (SubEvent.unsubscribe 0)
              ++ subscribeEvents 100 demoCallbacks) :=
  ⟨(C4_subscription_eviction demoManager 100 0 2 demoCallbacks (by decide)
      (by decide) (by decide) (by decide) (by decide) (by decide)).1,
   (C4_subscription_eviction demoManager 100 0 2 demoCallbacks (by decide)
      (by decide) (by decide) (by decide) (by decide) (by decide)).2.2.2.2⟩

/-- C5: `activateWallet` on an already-active wallet is an idempotent
no-op: the manager state (active set, teardown handles, eviction
callbacks) is returned unchanged and no events occur — no channel is
created and no wallet is evicted. -/
theorem C5_activate_idempotent (s : SubscriptionManager) (w : Nat)
    (cbs : WalletSubscriptionCallbacks) (h : w ∈ s.activeWallets) :
    activateWallet s w cbs = (s, []) := by
  simp [activateWallet, h]

/-- Witness for C5: re-activating the already-active wallet 3 leaves the
full manager untouched and produces no events. -/
theorem C5_activate_idempotent_witness :
    activateWallet demoManager 3 demoCallbacks = (demoManager, []) :=
  C5_activate_idempotent demoManager 3 demoCallbacks (by decide)

/-! ## Change detection: balance notifications (useMultisig.ts lines 215-254)

Per wallet, the effect compares the freshly fetched balance against the
previous observation (`prevBalancesRef`) and the last notified balance
(`lastNotifiedBalances`); balances are JavaScript `BigInt` values, modelled
as `Int`.  The returned number counts balance-increase notifications
fired by one pass of the effect. -/

/-- Per-wallet balance tracking state: the previously observed balance and
the last balance for which a notification fired. -/
structure BalanceTracker where
  prevBalance : Option Int
  lastNotified : Option Int
deriving DecidableEq

/-- One pass of the balance effect: on the first observation no
notification can fire (no previous balance); otherwise a notification
fires exactly when the balance strictly increased and the current value
was not already notified, in which case `lastNotified` is updated. -/
def balanceObserve (st : BalanceTracker) (current : Int) :
    BalanceTracker × Nat :=
  match st.prevBalance with
  | none => ({ prevBalance := some current, lastNotified := st.lastNotified }, 0)
  | some prev =>
      if prev < current ∧ st.lastNotified ≠ some current then
        ({ prevBalance := some current, lastNotified := some current }, 1)
      else
        ({ prevBalance := some current, lastNotified := st.lastNotified }, 0)

/-- C6: a balance-increase notification fires only when the current
balance strictly exceeds the previous observation and differs from the
last-notified balance; at most one fires per pass; and in the spec
scenario — last notified X, new balance Y > X — exactly one notification
fires, after which re-observing Y fires zero further notifications. -/
theorem C6_balance_increase :
    (∀ (st : BalanceTracker) (current : Int),
        (balanceObserve st current).2 ≤ 1) ∧
    (∀ (st : BalanceTracker) (current : Int),
        (balanceObserve st current).2 = 1 →
        ∃ prev, st.prevBalance = some prev ∧ prev < current ∧
          st.lastNotified ≠ some current) ∧
    (∀ X Y : Int, X < Y →
        (balanceObserve ⟨some X, some X⟩ Y).2 = 1 ∧
        balanceObserve (balanceObserve ⟨some X, some X⟩ Y).1 Y
          = (⟨some Y, some Y⟩, 0)) := by
  refine ⟨?_, ?_, ?_⟩
  · intro st current
    obtain ⟨pb, ln⟩ := st
    cases pb with
    | none => simp [balanceObserve]
    | some prev =>
        by_cases h : prev < current ∧ ln ≠ some current
        · simp [balanceObserve, h]
        · simp only [balanceObserve, if_neg h]
          exact Nat.zero_le 1
  · intro st current h
    obtain ⟨pb, ln⟩ := st
    cases pb with
    | none => simp [balanceObserve] at h
    | some prev =>
        by_cases hc : prev < current ∧ ln ≠ some current
        · exact ⟨prev, rfl, hc.1, hc.2⟩
        · simp only [balanceObserve, if_neg hc] at h
          exact absurd h (by decide)
  · intro X Y hXY
    have h1 : balanceObserve ⟨some X, some X⟩ Y
        = (⟨some Y, some Y⟩, 1) := by
      have hfire : X < Y ∧ (some X : Option Int) ≠ some Y :=
        ⟨hXY, by simp [hXY.ne]⟩
      simp only [balanceObserve, if_pos hfire]
    have h2 : balanceObserve ⟨some Y, some Y⟩ Y
        = (⟨some Y, some Y⟩, 0) := by
      have hnofire : ¬((Y : Int) < Y ∧ (some Y : Option Int) ≠ some Y) := by
        simp
      simp only [balanceObserve, if_neg hnofire]
    refine ⟨by rw [h1], ?_⟩
    rw [h1]
    exact h2

/-- Witness for C6 at X = 0, Y = 5 (and a concrete firing state for the
only-if direction). -/
theorem C6_balance_increase_witness :
    (∃ prev, (⟨some 0, none⟩ : BalanceTracker).prevBalance = some prev ∧
        prev < (1 : Int) ∧
        (⟨some 0, none⟩ : BalanceTracker).lastNotified ≠ some 1) ∧
    (balanceObserve ⟨some 0, some 0⟩ 5).2 = 1 ∧
    balanceObserve (balanceObserve ⟨some 0, some 0⟩ 5).1 5
      = (⟨some 5, some 5⟩, 0) :=
  ⟨C6_balance_increase.2.1 ⟨some 0, none⟩ 1 (by decide),
   (C6_balance_increase.2.2 0 5 (by decide)).1,
   (C6_balance_increase.2.2 0 5 (by decide)).2⟩

/-! ## Change detection: pending-transaction notifications
(useMultisig.ts lines 576-694)

Per wallet, the effect walks the current pending collection against the
previous observation (`prevPendingTxsRef`).  A transaction absent from the
previous map is a proposal candidate, notified only when the previous map
was non-empty (cold-start suppression) and not already in
`notifiedProposedTxs`.  A transaction present before is checked for the
ready-threshold crossing (deduplicated via `notifiedReadyTxs`), for new
approvers other than the connected account (deduplicated via the two-level
`notifiedApprovals`), and for revoked approvals (not deduplicated).
Hashes and addresses are abstract identifiers. -/

/-- One observed pending transaction: hash, approval count, threshold and
the list of addresses with an active approval. -/
structure TxObs where
  hash : Nat
  numApprovals : Nat
  threshold : Nat
  approvals : List Nat
deriving DecidableEq

/-- Notifications emitted by one pass of the pending-transaction effect. -/
inductive TxNotif
  | proposed (h : Nat)
  | ready (h : Nat)
  | approved (h : Nat) (approver : Nat)
  | revoked (h : Nat) (approver : Nat)
deriving DecidableEq

/-- Per-wallet dedup state of the pending-transaction effect. -/
structure PendingTracker where
  prevTxs : List (Nat × TxObs)
  proposedSet : List Nat
  readySet : List Nat
  approvalsNotified : List (Nat × List Nat)
deriving DecidableEq

/-- Update-or-append into an association list (JavaScript `Map.set`:
an existing key keeps its position, a new key is appended). -/
def upsertKey {K V : Type} [DecidableEq K] (l : List (K × V)) (k : K)
    (v : V) : List (K × V) :=
  if (lookupKey k l).isSome then
    l.map (fun kv => if kv.1 = k then (k, v) else kv)
  else l ++ [(k, v)]

/-- The inner loop over new approvers: each one not yet in the notified
set is added to it and produces one approval notification. -/
def notifyNewApprovers (txHash : Nat) (newApprovers : List Nat)
    (acc : List Nat × List TxNotif) : List Nat × List TxNotif :=
  newApprovers.foldl
    (fun acc a =>
      if a ∈ acc.1 then acc
      else (acc.1 ++ [a], acc.2 ++ [TxNotif.approved txHash a]))
    acc

/-- Processing of a single transaction of the current collection, given
the previous observation map, its size, the connected account, and the
mutable dedup state. -/
def processOneTx (connected : Option Nat) (prevTxs : List (Nat × TxObs))
    (prevCount : Nat) (st : PendingTracker) (tx : TxObs) :
    PendingTracker × List TxNotif :=
  match lookupKey tx.hash prevTxs with
  | none =>
      if prevCount > 0 ∧ tx.hash ∉ st.proposedSet then
        ({ st with proposedSet := st.proposedSet ++ [tx.hash] },
         [TxNotif.proposed tx.hash])
      else (st, [])
  | some prevTx =>
      let wasReady := prevTx.threshold ≤ prevTx.numApprovals
      let isReady := tx.threshold ≤ tx.numApprovals
      let step1 :=
        if ¬wasReady ∧ isReady ∧ tx.hash ∉ st.readySet then
          ({ st with readySet := st.readySet ++ [tx.hash] },
           [TxNotif.ready tx.hash])
        else (st, [])
      match connected with
      | none => step1
      | some me =>
          let newApprovers := tx.approvals.filter
            (fun a => a ∉ prevTx.approvals ∧ a ≠ me)
          let notified0 :=
            (lookupKey tx.hash step1.1.approvalsNotified).getD []
          let apStep := notifyNewApprovers tx.hash newApprovers (notified0, [])
          let st2 :=
            if newApprovers.isEmpty then step1.1
            else
              { step1.1 with
                approvalsNotified :=
                  upsertKey step1.1.approvalsNotified tx.hash apStep.1 }
          let revoked := prevTx.approvals.filter
            (fun a => a ∉ tx.approvals ∧ a ≠ me)
          (st2, step1.2 ++ apStep.2
                  ++ revoked.map (fun a => TxNotif.revoked tx.hash a))

/-- Accumulating step of the loop over the current collection. -/
def obsStep (connected : Option Nat) (prevTxs : List (Nat × TxObs))
    (prevCount : Nat) (acc : PendingTracker × List TxNotif) (tx : TxObs) :
    PendingTracker × List TxNotif :=
  ((processOneTx connected prevTxs prevCount acc.1 tx).1,
   acc.2 ++ (processOneTx connected prevTxs prevCount acc.1 tx).2)

/-- The map of current transactions keyed by hash, as built incrementally
by the loop (`currentTxsMap`). -/
def buildTxMap (txs : List TxObs) : List (Nat × TxObs) :=
  txs.foldl (fun acc tx => upsertKey acc tx.hash tx) []

/-- One pass of the pending-transaction effect for one wallet: the loop
runs over the current collection with the previous map fixed, and the
stored previous map is then replaced by the current one. -/
def observePending (connected : Option Nat) (st : PendingTracker)
    (txs : List TxObs) : PendingTracker × List TxNotif :=
  let step := txs.foldl (obsStep connected st.prevTxs st.prevTxs.length)
    (st, [])
  ({ step.1 with prevTxs := buildTxMap txs }, step.2)

/-- Number of new-transaction (proposal) notifications in a list. -/
def proposedCount (l : List TxNotif) : Nat :=
  (l.filter fun n => match n with | .proposed _ => true | _ => false).length

/-- Number of ready-to-execute notifications in a list. -/
def readyCount (l : List TxNotif) : Nat :=
  (l.filter fun n => match n with | .ready _ => true | _ => false).length

theorem lookupKey_eq_none_of_not_mem {K V : Type} [DecidableEq K]
    (l : List (K × V)) (k : K) (h : k ∉ l.map Prod.fst) :
    lookupKey k l = none := by
  induction l with
  | nil => rfl
  | cons x xs ih =>
      simp only [List.map_cons, List.mem_cons] at h
      push_neg at h
      obtain ⟨k', v'⟩ := x
      simp only [lookupKey, if_neg (by simpa using Ne.symm h.1)]
      exact ih h.2

theorem upsertKey_of_not_mem {K V : Type} [DecidableEq K]
    (l : List (K × V)) (k : K) (v : V) (h : k ∉ l.map Prod.fst) :
    upsertKey l k v = l ++ [(k, v)] := by
  simp [upsertKey, lookupKey_eq_none_of_not_mem l k h]

theorem buildTxMap_aux (txs : List TxObs) (acc : List (Nat × TxObs))
    (hnd : (txs.map TxObs.hash).Nodup)
    (hdis : ∀ t ∈ txs, t.hash ∉ acc.map Prod.fst) :
    txs.foldl (fun acc tx => upsertKey acc tx.hash tx) acc
      = acc ++ txs.map (fun t => (t.hash, t)) := by
  induction txs generalizing acc with
  | nil => simp
  | cons tx rest ih =>
      rw [List.map_cons, List.nodup_cons] at hnd
      rw [List.foldl_cons,
        upsertKey_of_not_mem acc tx.hash tx (hdis tx (List.mem_cons_self tx rest))]
      rw [ih (acc ++ [(tx.hash, tx)]) hnd.2 ?_]
      · simp [List.append_assoc]
      · intro t ht
        simp only [List.map_append, List.mem_append, List.map_cons,
          List.map_nil, List.mem_singleton]
        push_neg
        refine ⟨hdis t (List.mem_cons_of_mem tx ht), fun hc => ?_⟩
        exact hnd.1 (hc ▸ List.mem_map_of_mem TxObs.hash ht)

theorem buildTxMap_eq (txs : List TxObs)
    (hnd : (txs.map TxObs.hash).Nodup) :
    buildTxMap txs = txs.map (fun t => (t.hash, t)) := by
  simpa using buildTxMap_aux txs [] hnd (by simp)

theorem lookupKey_txMap_self (txs : List TxObs) (tx : TxObs)
    (hnd : (txs.map TxObs.hash).Nodup) (htx : tx ∈ txs) :
    lookupKey tx.hash (txs.map (fun t => (t.hash, t))) = some tx := by
  induction txs with
  | nil => cases htx
  | cons t rest ih =>
      rw [List.map_cons, List.nodup_cons] at hnd
      rcases List.mem_cons.mp htx with h | h
      · subst h
        simp [lookupKey]
      · have hne : t.hash ≠ tx.hash := by
          intro hc
          exact hnd.1 (hc ▸ List.mem_map_of_mem TxObs.hash h)
        simp only [List.map_cons, lookupKey, if_neg hne]
        exact ih hnd.2 h

theorem lookupKey_txMap_fresh (txs : List TxObs) (k : Nat)
    (h : k ∉ txs.map TxObs.hash) :
    lookupKey k (txs.map (fun t => (t.hash, t))) = none := by
  apply lookupKey_eq_none_of_not_mem
  intro hc
  rw [List.map_map] at hc
  exact h (by simpa using hc)

theorem processOneTx_coldStart (c : Option Nat) (st : PendingTracker)
    (tx : TxObs) : processOneTx c [] 0 st tx = (st, []) := by
  simp [processOneTx, lookupKey]

theorem processOneTx_self (c : Option Nat) (prevTxs : List (Nat × TxObs))
    (n : Nat) (st : PendingTracker) (tx : TxObs)
    (h : lookupKey tx.hash prevTxs = some tx) :
    processOneTx c prevTxs n st tx = (st, []) := by
  have hready : ¬(¬(tx.threshold ≤ tx.numApprovals)
      ∧ (tx.threshold ≤ tx.numApprovals) ∧ tx.hash ∉ st.readySet) := by
    rintro ⟨hna, ha, -⟩
    exact hna ha
  cases c with
  | none => simp only [processOneTx, h, if_neg hready]
  | some me =>
      have hf : tx.approvals.filter
          (fun a => decide (a ∉ tx.approvals ∧ a ≠ me)) = [] := by
        rw [List.filter_eq_nil_iff]
        intro a ha
        simp [ha]
      simp only [processOneTx, h, if_neg hready, hf, notifyNewApprovers,
        List.foldl_nil, List.isEmpty_nil, List.map_nil, List.append_nil,
        if_true]

theorem foldl_obsStep_const (c : Option Nat) (p : List (Nat × TxObs))
    (n : Nat) (txs : List TxObs) (st0 : PendingTracker) (l0 : List TxNotif)
    (h : ∀ tx ∈ txs, processOneTx c p n st0 tx = (st0, [])) :
    txs.foldl (obsStep c p n) (st0, l0) = (st0, l0) := by
  induction txs generalizing l0 with
  | nil => rfl
  | cons tx rest ih =>
      have h0 := h tx (List.mem_cons_self tx rest)
      rw [List.foldl_cons]
      show rest.foldl (obsStep c p n)
          ((processOneTx c p n st0 tx).1,
           l0 ++ (processOneTx c p n st0 tx).2) = (st0, l0)
      rw [h0]
      simp only [List.append_nil]
      exact ih l0 (fun t ht => h t (List.mem_cons_of_mem tx ht))

theorem observePending_first (c : Option Nat) (st : PendingTracker)
    (hp : st.prevTxs = []) (txs : List TxObs) :
    observePending c st txs = ({ st with prevTxs := buildTxMap txs }, []) := by
  simp only [observePending, hp, List.length_nil]
  rw [foldl_obsStep_const c [] 0 txs st []
    (fun tx _ => processOneTx_coldStart c st tx)]

theorem observePending_singleton (c : Option Nat) (st : PendingTracker)
    (tx : TxObs) :
    observePending c st [tx]
      = ({ (processOneTx c st.prevTxs st.prevTxs.length st tx).1 with
           prevTxs := buildTxMap [tx] },
         (processOneTx c st.prevTxs st.prevTxs.length st tx).2) := by
  simp [observePending, obsStep]

theorem readyCount_append (l1 l2 : List TxNotif) :
    readyCount (l1 ++ l2) = readyCount l1 + readyCount l2 := by
  simp [readyCount, List.filter_append]

theorem readyCount_notifyNewApprovers (h : Nat) (l : List Nat)
    (acc : List Nat × List TxNotif) :
    readyCount (notifyNewApprovers h l acc).2 = readyCount acc.2 := by
  induction l generalizing acc with
  | nil => rfl
  | cons a rest ih =>
      show readyCount (notifyNewApprovers h rest
        (if a ∈ acc.1 then acc
         else (acc.1 ++ [a], acc.2 ++ [TxNotif.approved h a]))).2
        = readyCount acc.2
      by_cases hm : a ∈ acc.1
      · rw [if_pos hm]
        exact ih acc
      · rw [if_neg hm, ih (acc.1 ++ [a], acc.2 ++ [TxNotif.approved h a])]
        simp [readyCount, List.filter_append]

theorem readyCount_map_revoked (h : Nat) (l : List Nat) :
    readyCount (l.map (fun a => TxNotif.revoked h a)) = 0 := by
  induction l with
  | nil => rfl
  | cons a rest ih =>
      simp [readyCount, List.filter_cons]

/-- C7 is refuted at N = 0: after a first observation of zero pending
transactions, the next observation containing one brand-new transaction
fires zero new-transaction notifications (the previous map is still empty,
so cold-start suppression applies again), not exactly one as claimed. -/
theorem C7_cold_start_counterexample :
    (observePending none
        (observePending none ⟨[], [], [], []⟩ []).1
        [⟨1, 0, 1, []⟩]).2 = [] ∧
    proposedCount
      (observePending none
        (observePending none ⟨[], [], [], []⟩ []).1
        [⟨1, 0, 1, []⟩]).2 = 0 := by
  constructor
  · decide
  · decide

/-- C7 (amended: the first observation must contain at least one pending
transaction, N ≥ 1): a first observation of a non-empty pending collection
fires no notifications at all (cold-start suppression), and a subsequent
observation extended by one fresh transaction fires exactly one
new-transaction notification, for that transaction and nothing else. -/
theorem C7_cold_start_suppression (connected : Option Nat)
    (txs : List TxObs) (newTx : TxObs)
    (hne : txs ≠ [])
    (hnd : (txs.map TxObs.hash).Nodup)
    (hfresh : newTx.hash ∉ txs.map TxObs.hash) :
    (observePending connected ⟨[], [], [], []⟩ txs).2 = [] ∧
    (observePending connected
        (observePending connected ⟨[], [], [], []⟩ txs).1
        (txs ++ [newTx])).2 = [TxNotif.proposed newTx.hash] := by
  have h1 := observePending_first connected ⟨[], [], [], []⟩ rfl txs
  refine ⟨by rw [h1], ?_⟩
  rw [h1]
  show (observePending connected ⟨buildTxMap txs, [], [], []⟩
      (txs ++ [newTx])).2 = [TxNotif.proposed newTx.hash]
  rw [buildTxMap_eq txs hnd]
  simp only [observePending]
  rw [List.foldl_append]
  rw [foldl_obsStep_const connected (txs.map (fun t => (t.hash, t)))
    (txs.map (fun t => (t.hash, t))).length txs
    ⟨txs.map (fun t => (t.hash, t)), [], [], []⟩ []
    (fun tx htx => processOneTx_self connected _ _ _ tx
      (lookupKey_txMap_self txs tx hnd htx))]
  simp only [List.foldl_cons, List.foldl_nil, obsStep]
  have hlk := lookupKey_txMap_fresh txs newTx.hash hfresh
  have hcond : (txs.map (fun t => (t.hash, t))).length > 0
      ∧ newTx.hash ∉ ([] : List Nat) := by
    simp [List.length_pos, hne]
  simp only [processOneTx, hlk, if_pos hcond, List.nil_append]

/-- Witness for C7 (amended) at N = 1: one transaction observed first,
then one fresh transaction appended. -/
theorem C7_cold_start_suppression_witness :
    (observePending none ⟨[], [], [], []⟩ [⟨1, 0, 1, []⟩]).2 = [] ∧
    (observePending none
        (observePending none ⟨[], [], [], []⟩ [⟨1, 0, 1, []⟩]).1
        ([⟨1, 0, 1, []⟩] ++ [⟨2, 0, 1, []⟩])).2
      = [TxNotif.proposed 2] :=
  C7_cold_start_suppression none [⟨1, 0, 1, []⟩] ⟨2, 0, 1, []⟩
    (by decide) (by decide) (by decide)

/-- C8: a tracked pending transaction whose approval count goes from below
its threshold (in the previous observation) to at-or-above its threshold
(in the current one), and which was not yet in the ready dedup set, fires
exactly one ready-to-execute notification in that pass; the hash enters
the dedup set, and re-observing the very same at-or-above-threshold state
fires no further notification of any kind. -/
theorem C8_ready_notification (connected : Option Nat)
    (st : PendingTracker) (prevTx tx : TxObs)
    (hprev : lookupKey tx.hash st.prevTxs = some prevTx)
    (hbelow : prevTx.numApprovals < prevTx.threshold)
    (hat : tx.threshold ≤ tx.numApprovals)
    (hnew : tx.hash ∉ st.readySet) :
    readyCount (observePending connected st [tx]).2 = 1 ∧
    tx.hash ∈ (observePending connected st [tx]).1.readySet ∧
    (observePending connected
        (observePending connected st [tx]).1 [tx]).2 = [] := by
  have hcond : ¬(prevTx.threshold ≤ prevTx.numApprovals)
      ∧ tx.threshold ≤ tx.numApprovals ∧ tx.hash ∉ st.readySet :=
    ⟨Nat.not_le.mpr hbelow, hat, hnew⟩
  have key : readyCount
        (processOneTx connected st.prevTxs st.prevTxs.length st tx).2 = 1
      ∧ (processOneTx connected st.prevTxs st.prevTxs.length st tx).1.readySet
        = st.readySet ++ [tx.hash] := by
    cases connected with
    | none =>
        simp only [processOneTx, hprev, if_pos hcond]
        exact ⟨rfl, trivial⟩
    | some me =>
        simp only [processOneTx, hprev, if_pos hcond]
        constructor
        · rw [readyCount_append, readyCount_append,
            readyCount_notifyNewApprovers, readyCount_map_revoked]
          rfl
        · by_cases he : (tx.approvals.filter
              (fun a => decide (a ∉ prevTx.approvals ∧ a ≠ me))).isEmpty = true
          · rw [if_pos he]
          · rw [if_neg he]
  have hsingle := observePending_singleton connected st tx
  refine ⟨?_, ?_, ?_⟩
  · rw [hsingle]
    exact key.1
  · rw [hsingle]
    show tx.hash ∈ (processOneTx connected st.prevTxs
      st.prevTxs.length st tx).1.readySet
    rw [key.2]
    simp
  · rw [hsingle]
    have hst' : ({ (processOneTx connected st.prevTxs
        st.prevTxs.length st tx).1 with
        prevTxs := buildTxMap [tx] } : PendingTracker).prevTxs
        = [(tx.hash, tx)] := by
      simp [buildTxMap, upsertKey, lookupKey]
    rw [observePending_singleton]
    rw [processOneTx_self connected _ _ _ tx (by rw [hst']; simp [lookupKey])]

/-- Witness for C8: a transaction at hash 1 moving from 0 of 2 approvals
to 2 of 2. -/
theorem C8_ready_notification_witness :
    readyCount (observePending none
        ⟨[(1, ⟨1, 0, 2, []⟩)], [], [], []⟩ [⟨1, 2, 2, []⟩]).2 = 1 ∧
    (1 : Nat) ∈ (observePending none
        ⟨[(1, ⟨1, 0, 2, []⟩)], [], [], []⟩ [⟨1, 2, 2, []⟩]).1.readySet ∧
    (observePending none
        (observePending none
          ⟨[(1, ⟨1, 0, 2, []⟩)], [], [], []⟩ [⟨1, 2, 2, []⟩]).1
        [⟨1, 2, 2, []⟩]).2 = [] :=
  C8_ready_notification none ⟨[(1, ⟨1, 0, 2, []⟩)], [], [], []⟩
    ⟨1, 0, 2, []⟩ ⟨1, 2, 2, []⟩ (by decide) (by decide) (by decide) (by decide)

/-! ## Reconnecting Stream Client: `IndexerSubscriptionService`
(SETUP.md lines 935-1041)

The subscribe status callback resets the per-channel attempt counter on
`SUBSCRIBED` and calls `handleReconnect` on `CHANNEL_ERROR` or
`TIMED_OUT`; `handleReconnect` gives up with a terminal error once the
counter reaches `maxReconnectAttempts`, and otherwise schedules a
resubscription after `reconnectDelayMs * 2 ^ attempts` milliseconds and
increments the counter. -/

/-- Maximum reconnection attempts (SETUP.md line 938). -/
def maxReconnectAttempts : Nat := 5

/-- Base reconnection delay in milliseconds (SETUP.md line 939). -/
def reconnectDelayMs : Nat := 1000

/-- Channel status values observed by the subscribe callback. -/
inductive ChannelStatus
  | SUBSCRIBED
  | CHANNEL_ERROR
  | TIMED_OUT
deriving DecidableEq

/-- Observable outcome of one status event: counter reset, a retry
scheduled after the given delay, or the terminal failure reported through
`onError`. -/
inductive ReconnectAction
  | reset
  | scheduleRetry (delayMs : Nat)
  | terminalFailure
deriving DecidableEq

/-- Method `handleReconnect`: given the current attempt counter, either
report terminal failure (counter at the maximum) or schedule a retry
after an exponential delay and increment the counter. -/
def handleReconnect (attempts : Nat) : Nat × ReconnectAction :=
  if attempts ≥ maxReconnectAttempts then
    (attempts, ReconnectAction.terminalFailure)
  else
    (attempts + 1,
     ReconnectAction.scheduleRetry (reconnectDelayMs * 2 ^ attempts))

/-- The subscribe status callback of `subscribeToTransactions`. -/
def subscribeStatusHandler (attempts : Nat) :
    ChannelStatus → Nat × ReconnectAction
  | .SUBSCRIBED => (0, ReconnectAction.reset)
  | .CHANNEL_ERROR => handleReconnect attempts
  | .TIMED_OUT => handleReconnect attempts

/-- C9: reaching `SUBSCRIBED` resets the attempt counter to zero; below
the maximum, a failure schedules a retry after `base * 2 ^ attempts` and
increments the counter; delays of consecutive failures strictly increase;
every scheduled delay is bounded by the ceiling `base * 2 ^ 4 = 16000` ms
(the counter never exceeds the maximum while retries are still
scheduled); and once the maximum attempt count is reached a further
failure produces the terminal `onError` outcome instead of a retry. -/
theorem C9_reconnect_backoff :
    (∀ a : Nat, subscribeStatusHandler a ChannelStatus.SUBSCRIBED
        = (0, ReconnectAction.reset)) ∧
    (∀ a : Nat, a < maxReconnectAttempts →
        handleReconnect a
          = (a + 1,
             ReconnectAction.scheduleRetry (reconnectDelayMs * 2 ^ a))) ∧
    (∀ a d d' : Nat,
        (handleReconnect a).2 = ReconnectAction.scheduleRetry d →
        (handleReconnect (handleReconnect a).1).2
          = ReconnectAction.scheduleRetry d' →
        d < d') ∧
    (∀ a d : Nat,
        (handleReconnect a).2 = ReconnectAction.scheduleRetry d →
        d ≤ reconnectDelayMs * 2 ^ (maxReconnectAttempts - 1)) ∧
    (∀ a : Nat, maxReconnectAttempts ≤ a →
        (handleReconnect a).2 = ReconnectAction.terminalFailure) := by
  have hstep : ∀ a : Nat, ¬(a ≥ maxReconnectAttempts) →
      handleReconnect a
        = (a + 1,
           ReconnectAction.scheduleRetry (reconnectDelayMs * 2 ^ a)) := by
    intro a ha
    simp [handleReconnect, if_neg ha]
  have hretry : ∀ a d : Nat,
      (handleReconnect a).2 = ReconnectAction.scheduleRetry d →
      a < maxReconnectAttempts ∧ d = reconnectDelayMs * 2 ^ a := by
    intro a d h
    by_cases ha : a ≥ maxReconnectAttempts
    · simp [handleReconnect, if_pos ha] at h
    · rw [hstep a ha] at h
      replace h : ReconnectAction.scheduleRetry (reconnectDelayMs * 2 ^ a)
          = ReconnectAction.scheduleRetry d := h
      injection h with h2
      exact ⟨Nat.lt_of_not_le ha, h2.symm⟩
  refine ⟨fun a => rfl, ?_, ?_, ?_, ?_⟩
  · intro a ha
    exact hstep a (Nat.not_le.mpr ha)
  · intro a d d' h1 h2
    obtain ⟨ha, hd⟩ := hretry a d h1
    have h1' : (handleReconnect a).1 = a + 1 := by
      rw [hstep a (Nat.not_le.mpr ha)]
    rw [h1'] at h2
    obtain ⟨ha', hd'⟩ := hretry (a + 1) d' h2
    rw [hd, hd']
    have hpow : (2 : Nat) ^ a < 2 ^ (a + 1) :=
      Nat.pow_lt_pow_succ (by norm_num)
    exact mul_lt_mul_of_pos_left hpow (by norm_num [reconnectDelayMs])
  · intro a d h
    obtain ⟨ha, hd⟩ := hretry a d h
    rw [hd]
    have hle : a ≤ maxReconnectAttempts - 1 := by
      simp only [maxReconnectAttempts] at *
      omega
    exact Nat.mul_le_mul_left reconnectDelayMs
      (Nat.pow_le_pow_right (by norm_num) hle)
  · intro a ha
    simp [handleReconnect, if_pos ha]

/-- Witness for C9: reset at counter 3; retry at counter 2 (delay 4000);
strict increase 2000 < 4000 across the failures at counters 1 and 2;
cap on the delay of the final scheduled retry (16000 ms at counter 4);
terminal failure at counter 5. -/
theorem C9_reconnect_backoff_witness :
    subscribeStatusHandler 3 ChannelStatus.SUBSCRIBED
      = (0, ReconnectAction.reset) ∧
    handleReconnect 2 = (3, ReconnectAction.scheduleRetry 4000) ∧
    (2000 : Nat) < 4000 ∧
    (16000 : Nat) ≤ reconnectDelayMs * 2 ^ (maxReconnectAttempts - 1) ∧
    (handleReconnect 5).2 = ReconnectAction.terminalFailure :=
  ⟨C9_reconnect_backoff.1 3,
   C9_reconnect_backoff.2.1 2 (by decide),
   C9_reconnect_backoff.2.2.1 1 2000 4000 (by decide) (by decide),
   C9_reconnect_backoff.2.2.2.1 4 16000 (by decide),
   C9_reconnect_backoff.2.2.2.2 5 (by decide)⟩

/-! ## Cache Reconciliation / Merge Logic: `subscribeToTransactions`
processors (useMultisig.ts lines 466-527)

The `onInsert` processor prepends the converted canonical record to the
pending collection after removing any optimistic placeholder with the
same hash, then truncates to `MAX_CACHE_TRANSACTIONS`.  The `onUpdate`
processor, on a status transition to executed or cancelled, removes the
record from pending and prepends it to the matching history collection,
likewise truncated; for any other status it replaces the pending entry in
place.  Only the hash and the optimistic flag are relevant to the merge
decisions, so a cached record is modelled by those two fields. -/

/-- Maximum cached transactions per collection (useMultisig.ts line 81). -/
def MAX_CACHE_TRANSACTIONS : Nat := 500

/-- A cached transaction record: its hash and its `_optimistic` flag
(always false on converted canonical records). -/
structure CachedTx where
  hash : Nat
  optimistic : Bool
deriving DecidableEq

/-- Status carried by an update event. -/
inductive TxStatus
  | pending
  | executed
  | cancelled
deriving DecidableEq

/-- The `onInsert` cache updater. -/
def onInsertMerge (old : List CachedTx) (converted : CachedTx) :
    List CachedTx :=
  let filtered := old.filter
    (fun t => !t.optimistic || t.hash ≠ converted.hash)
  (converted :: filtered).take MAX_CACHE_TRANSACTIONS

/-- The `onUpdate` cache updater, acting on the pending, executed-history
and cancelled-history collections. -/
def onUpdateMerge (status : TxStatus)
    (pending executedHist cancelledHist : List CachedTx)
    (txHash : Nat) (converted : CachedTx) :
    List CachedTx × List CachedTx × List CachedTx :=
  match status with
  | .executed =>
      (pending.filter (fun t => t.hash ≠ txHash),
       (converted :: executedHist).take MAX_CACHE_TRANSACTIONS,
       cancelledHist)
  | .cancelled =>
      (pending.filter (fun t => t.hash ≠ txHash),
       executedHist,
       (converted :: cancelledHist).take MAX_CACHE_TRANSACTIONS)
  | .pending =>
      (pending.map (fun t => if t.hash = txHash then converted else t),
       executedHist, cancelledHist)

/-- C10: `onInsert` prepends the canonical record, keeps no optimistic
placeholder sharing its hash, and truncates to `MAX_CACHE_TRANSACTIONS`;
an update to executed (resp. cancelled) removes every record with that
hash from the pending collection and prepends the canonical record to the
matching history collection, which is capped at `MAX_CACHE_TRANSACTIONS`
so that an insert at capacity drops exactly the oldest (last) entry. -/
theorem C10_merge_policy :
    (∀ (old : List CachedTx) (c : CachedTx),
        (onInsertMerge old c).head? = some c) ∧
    (∀ (old : List CachedTx) (c : CachedTx),
        (onInsertMerge old c).length ≤ MAX_CACHE_TRANSACTIONS) ∧
    (∀ (old : List CachedTx) (c t : CachedTx), t ∈ onInsertMerge old c →
        t = c ∨ (t ∈ old ∧ (t.optimistic = true → t.hash ≠ c.hash))) ∧
    (∀ (p e ch : List CachedTx) (h : Nat) (c : CachedTx),
        (∀ t ∈ (onUpdateMerge .executed p e ch h c).1, t.hash ≠ h) ∧
        (onUpdateMerge .executed p e ch h c).2.1.head? = some c ∧
        (onUpdateMerge .executed p e ch h c).2.1.length
          ≤ MAX_CACHE_TRANSACTIONS ∧
        (e.length = MAX_CACHE_TRANSACTIONS →
          (onUpdateMerge .executed p e ch h c).2.1 = c :: e.dropLast) ∧
        (onUpdateMerge .executed p e ch h c).2.2 = ch) ∧
    (∀ (p e ch : List CachedTx) (h : Nat) (c : CachedTx),
        (∀ t ∈ (onUpdateMerge .cancelled p e ch h c).1, t.hash ≠ h) ∧
        (onUpdateMerge .cancelled p e ch h c).2.2.head? = some c ∧
        (onUpdateMerge .cancelled p e ch h c).2.2.length
          ≤ MAX_CACHE_TRANSACTIONS ∧
        (ch.length = MAX_CACHE_TRANSACTIONS →
          (onUpdateMerge .cancelled p e ch h c).2.2 = c :: ch.dropLast) ∧
        (onUpdateMerge .cancelled p e ch h c).2.1 = e) := by
  have hhead : ∀ (l : List CachedTx) (c : CachedTx),
      ((c :: l).take MAX_CACHE_TRANSACTIONS).head? = some c := by
    intro l c
    rfl
  have hcap : ∀ (l : List CachedTx) (c : CachedTx),
      l.length = MAX_CACHE_TRANSACTIONS →
      (c :: l).take MAX_CACHE_TRANSACTIONS = c :: l.dropLast := by
    intro l c hl
    have h1 : (c :: l).take MAX_CACHE_TRANSACTIONS
        = c :: l.take (MAX_CACHE_TRANSACTIONS - 1) := by
      show (c :: l).take (499 + 1) = c :: l.take 499
      rw [List.take_succ_cons]
    rw [h1, List.dropLast_eq_take, hl]
  have hfilter_ne : ∀ (p : List CachedTx) (h : Nat),
      ∀ t ∈ p.filter (fun t => t.hash ≠ h), t.hash ≠ h := by
    intro p h t ht
    have := (List.mem_filter.mp ht).2
    simpa using this
  refine ⟨?_, ?_, ?_, ?_, ?_⟩
  · intro old c
    exact hhead _ c
  · intro old c
    simp only [onInsertMerge]
    rw [List.length_take]
    omega
  · intro old c t ht
    simp only [onInsertMerge] at ht
    have ht' := List.take_subset _ _ ht
    rcases List.mem_cons.mp ht' with h | h
    · exact Or.inl h
    · obtain ⟨hmem, hpred⟩ := List.mem_filter.mp h
      refine Or.inr ⟨hmem, fun hopt => ?_⟩
      simp only [hopt, Bool.not_true, Bool.false_or] at hpred
      simpa using hpred
  · intro p e ch h c
    exact ⟨hfilter_ne p h, hhead e c,
      by simp only [onUpdateMerge]; rw [List.length_take]; omega,
      fun hl => hcap e c hl, rfl⟩
  · intro p e ch h c
    exact ⟨hfilter_ne p h, hhead ch c,
      by simp only [onUpdateMerge]; rw [List.length_take]; omega,
      fun hl => hcap ch c hl, rfl⟩

/-- Witness for C10 at concrete inputs: an insert over a collection with
an optimistic placeholder of the same hash, and an executed transition
with a history collection exactly at capacity. -/
theorem C10_merge_policy_witness :
    (onInsertMerge [⟨1, true⟩, ⟨2, false⟩] ⟨1, false⟩).head? = some ⟨1, false⟩ ∧
    ((⟨2, false⟩ : CachedTx) = ⟨1, false⟩ ∨
      ((⟨2, false⟩ : CachedTx) ∈ [(⟨1, true⟩ : CachedTx), ⟨2, false⟩] ∧
        ((⟨2, false⟩ : CachedTx).optimistic = true →
          (⟨2, false⟩ : CachedTx).hash ≠ (⟨1, false⟩ : CachedTx).hash))) ∧
    (onUpdateMerge .executed [⟨3, false⟩] (List.replicate 500 ⟨9, false⟩)
        [] 3 ⟨3, false⟩).2.1
      = ⟨3, false⟩ :: (List.replicate 500 (⟨9, false⟩ : CachedTx)).dropLast :=
  ⟨C10_merge_policy.1 [⟨1, true⟩, ⟨2, false⟩] ⟨1, false⟩,
   C10_merge_policy.2.2.1 [⟨1, true⟩, ⟨2, false⟩] ⟨1, false⟩ ⟨2, false⟩
     (by decide),
   (C10_merge_policy.2.2.2.1 [⟨3, false⟩] (List.replicate 500 ⟨9, false⟩)
     [] 3 ⟨3, false⟩).2.2.2.1 (by rw [List.length_replicate]; rfl)⟩
